import Mathlib

/-!
Verification of the dependency-graph builder and cycle-aware topological
sorter of the konfUpr2 repository (src/stage4/main4.py, src/stage5/main5.py).

Package names are modelled as `String`.  A Python `dict` is modelled as an
insertion-ordered association list (`Graph`), with `insertG` reproducing
the Python update-in-place / append-if-new semantics and `lookupG` returning
the (unique) binding.  The recursive traversals are driven by an explicit
fuel argument: in `dfs_build_graph` the source guard `depth > max_depth`
corresponds to `fuel = 0` under the correspondence `fuel = max_depth + 1 -
depth` (the entry point supplies `max_depth + 1`), and in
`topological_sort` the fuel `g.length + 1` is proved sufficient, so the
fuel-exhaustion branch (`none`) is unreachable.  Failures of
`DependencySource.resolve` are modelled by `Except String`.
-/

namespace KonfUpr

/-- A Python dict from package name to dependency list, as an
insertion-ordered association list. -/
abbrev Graph := List (String × List String)

/-- Dict lookup: the value bound to the first occurrence of the key. -/
def lookupG : Graph → String → Option (List String)
  | [], _ => none
  | (k, v) :: rest, n => if n = k then some v else lookupG rest n

/-- The keys of the dict, in insertion order. -/
def keysG (g : Graph) : List String := g.map Prod.fst

/-- Dict update: `g[k] = v`.  Updates the first binding of `k` in place,
or appends a new binding at the end (Python dict semantics). -/
def insertG : Graph → String → List String → Graph
  | [], k, v => [(k, v)]
  | (k', v') :: rest, k, v =>
    if k = k' then (k, v) :: rest else (k', v') :: insertG rest k v

/-- Test whether `needle` is an initial segment of `hay`. -/
def listStartsWith : List Char → List Char → Bool
  | _, [] => true
  | [], _ :: _ => false
  | a :: as, b :: bs => a == b && listStartsWith as bs

/-- Test whether `needle` occurs contiguously in `hay`, as the Python
substring test `needle in hay` does on strings. -/
def listContainsSub : List Char → List Char → Bool
  | [], needle => listStartsWith [] needle
  | h :: t, needle => listStartsWith (h :: t) needle || listContainsSub t needle

/-- main4.py lines 26-29 / main5.py lines 26-29:
`should_skip_package(pkg_name, filter_substring)` returns `False` for the
empty filter, else whether the filter is a substring of the name. -/
def should_skip_package (pkg_name : String) (filter_substring : String) : Bool :=
  if filter_substring = "" then false
  else listContainsSub pkg_name.data filter_substring.data

/-- Run a state-transforming step over a list, left to right (the
`for dep in filtered_deps:` loops). -/
def runList (step : String → σ → σ) : List String → σ → σ
  | [], st => st
  | d :: rest, st => runList step rest (step d st)

/-- State of a stage-4 builder run: the graph under construction, the
names passed to the dependency source so far (instrumentation for the
fetch-at-most-once property), and the emitted diagnostics. -/
structure BuildState where
  graph : Graph
  calls : List String
  log : List String
deriving DecidableEq

/-- main4.py lines 111-158, `dfs_build_graph`: bounded DFS, no global
memoization.  `fuel` stands for `max_depth + 1 - depth`, so the source
guard `depth > max_depth` is the `0` case and the loop guard
`depth + 1 <= max_depth` is `1 ≤ fuel` for the callee fuel. -/
def dfs_build_graph4 (resolve : String → Except String (List String))
    (filter_substring : String) :
    Nat → String → List String → BuildState → BuildState
  | 0, _, _, st => st
  | fuel + 1, current, visited_path, st =>
    if should_skip_package current filter_substring then st
    else if current ∈ visited_path then st
    else
      let st1 := if (lookupG st.graph current).isSome then st
        else { st with graph := insertG st.graph current [] }
      let st2 := { st1 with calls := st1.calls ++ [current] }
      match resolve current with
      | .error e =>
        { st2 with log := st2.log ++ ["warning: failed to fetch dependencies for " ++ current ++ ": " ++ e] }
      | .ok direct_deps =>
        let filtered_deps := direct_deps.filter
          (fun dep => ! should_skip_package dep filter_substring)
        let st3 := { st2 with graph := insertG st2.graph current filtered_deps }
        let new_visited := visited_path ++ [current]
        runList
          (fun dep s =>
            if (lookupG s.graph dep).isNone ∨ 1 ≤ fuel then
              dfs_build_graph4 resolve filter_substring fuel dep new_visited s
            else s)
          filtered_deps st3

/-- main4.py, the whole-run entry point (main, lines 239-248): root at
depth 0, empty visited path, empty graph. -/
def build_graph4 (resolve : String → Except String (List String))
    (root : String) (max_depth : Nat) (filter_substring : String) : BuildState :=
  dfs_build_graph4 resolve filter_substring (max_depth + 1) root [] ⟨[], [], []⟩

/-- State of a stage-5 builder run; stage 5 additionally carries the
global `processed` memo set. -/
structure BuildState5 where
  graph : Graph
  processed : List String
  calls : List String
  log : List String
deriving DecidableEq

/-- main5.py lines 80-109, `dfs_build_graph`: bounded DFS with the global
`processed` memo set.  Fuel as in `dfs_build_graph4`. -/
def dfs_build_graph5 (resolve : String → Except String (List String))
    (filter_substring : String) :
    Nat → String → List String → BuildState5 → BuildState5
  | 0, _, _, st => st
  | fuel + 1, current, visited_path, st =>
    if should_skip_package current filter_substring then st
    else if current ∈ visited_path then st
    else if current ∈ st.processed then st
    else
      let new_visited := visited_path ++ [current]
      let st1 := { st with calls := st.calls ++ [current] }
      match resolve current with
      | .error e =>
        { st1 with
          log := st1.log ++ ["Error getting dependencies for " ++ current ++ ": " ++ e],
          processed := st1.processed ++ [current] }
      | .ok direct_deps =>
        let filtered_deps := direct_deps.filter
          (fun dep => ! should_skip_package dep filter_substring)
        let st2 := { st1 with graph := insertG st1.graph current filtered_deps }
        let st3 := runList
          (fun dep s => dfs_build_graph5 resolve filter_substring fuel dep new_visited s)
          filtered_deps st2
        { st3 with processed := st3.processed ++ [current] }

/-- main5.py, the whole-run entry point (main, lines 196-219). -/
def build_graph5 (resolve : String → Except String (List String))
    (root : String) (max_depth : Nat) (filter_substring : String) : BuildState5 :=
  dfs_build_graph5 resolve filter_substring (max_depth + 1) root [] ⟨[], [], [], []⟩

/-- main4.py lines 56-86, `extract_dependencies`: dependency identifiers
of a nuspec manifest, taken from the grouped declarations then the flat
ones, de-duplicated by the `(id, version)` pair (not by id alone); empty
ids are dropped.  A manifest is modelled as its list of groups of
`(id, version)` pairs and its flat list of `(id, version)` pairs. -/
def extract_dependencies (groups : List (List (String × String)))
    (flat : List (String × String)) : List String :=
  let add := fun (acc : List (String × String) × List String) (p : String × String) =>
    if p.1 = "" then acc
    else if p ∈ acc.1 then acc
    else (acc.1 ++ [p], acc.2 ++ [p.1])
  (flat.foldl add (groups.foldl (fun a grp => grp.foldl add a) ([], []))).2

/-! ## The cycle-aware topological sorter

main4.py lines 161-191 and main5.py lines 112-139 are the same
`topological_sort`. -/

/-- Color WHITE in the three-color DFS. -/
def WHITE : Nat := 0
/-- Color GRAY in the three-color DFS. -/
def GRAY : Nat := 1
/-- Color BLACK in the three-color DFS. -/
def BLACK : Nat := 2

/-- Mutable state of `topological_sort`: the color map, the post-order
`result` list and the `in_cycle` set. -/
structure SortState where
  color : String → Nat
  result : List String
  inCycle : List String

/-- Pointwise update of the color map (`color[node] = v`). -/
def setColor (c : String → Nat) (n : String) (v : Nat) : String → Nat :=
  fun x => if x = n then v else c x

/-- The `for dep in graph.get(node, []):` loop body of the inner
`dfs` of the sorter: skip dangling references, stop at the first failing visit.
`visit` is the recursive call at the current fuel. -/
def visitList (g : Graph) (visit : String → SortState → Option (Bool × SortState)) :
    List String → SortState → Option (Bool × SortState)
  | [], s => some (true, s)
  | d :: rest, s =>
    if (lookupG g d).isNone then visitList g visit rest s
    else
      match visit d s with
      | none => none
      | some (false, s') => some (false, s')
      | some (true, s') => visitList g visit rest s'

/-- The inner `dfs(node)` of `topological_sort` (main4.py lines 167-184).
`none` is fuel exhaustion, proved unreachable for the fuel used by
`topological_sort`.  Returns the boolean of the Python function and the state. -/
def sortDfs (g : Graph) : Nat → String → SortState → Option (Bool × SortState)
  | 0, _, _ => none
  | fuel + 1, node, s =>
    if s.color node = GRAY then
      some (false, { s with inCycle := s.inCycle ++ [node] })
    else if s.color node = BLACK then
      some (true, s)
    else
      let s1 := { s with color := setColor s.color node GRAY }
      match visitList g (fun d t => sortDfs g fuel d t) ((lookupG g node).getD []) s1 with
      | none => none
      | some (false, s2) =>
        some (false, { s2 with
          inCycle := s2.inCycle ++ [node],
          color := setColor s2.color node WHITE })
      | some (true, s2) =>
        some (true, { s2 with
          color := setColor s2.color node BLACK,
          result := s2.result ++ [node] })

/-- The driver loop `for node in graph: if color[node] == WHITE: dfs(node)`
(main4.py lines 186-188). -/
def sortLoop (g : Graph) (fuel : Nat) : List String → SortState → Option SortState
  | [], s => some s
  | k :: rest, s =>
    if s.color k = WHITE then
      match sortDfs g fuel k s with
      | none => none
      | some (_, s') => sortLoop g fuel rest s'
    else sortLoop g fuel rest s

/-- main4.py lines 161-191 / main5.py lines 112-139, `topological_sort`:
three-color DFS over the keys of the graph in iteration order, then the
post-order result with all cycle-tainted names removed.  `none` is fuel
exhaustion, proved unreachable. -/
def topological_sort (g : Graph) : Option (List String) :=
  match sortLoop g (g.length + 1) (keysG g) ⟨fun _ => WHITE, [], []⟩ with
  | none => none
  | some s => some (s.result.filter (fun n => decide (n ∉ s.inCycle)))

/-- The edge relation of a graph: `b` occurs in the dependency list
bound to key `a`. -/
def EdgeG (g : Graph) (a b : String) : Prop :=
  ∃ l, lookupG g a = some l ∧ b ∈ l

/-- Index of the first occurrence of a name in a list. -/
def idxOf : List String → String → Nat
  | [], _ => 0
  | x :: rest, a => if x = a then 0 else idxOf rest a + 1

/-! ## Concrete dependency sources used in the examples of the spec -/

/-- The diamond source of §8: `A -> [B, C]`, `B -> [D]`, `C -> [D]`,
`D -> []`. -/
def srcDiamond : String → Except String (List String)
  | "A" => .ok ["B", "C"]
  | "B" => .ok ["D"]
  | "C" => .ok ["D"]
  | "D" => .ok []
  | _ => .ok []

/-- A source whose resolution of `B` fails (§8 unresolved-node scenario):
`A -> [B, C]`, `B` raises, `C -> []`. -/
def srcFails : String → Except String (List String)
  | "A" => .ok ["B", "C"]
  | "B" => .error "boom"
  | _ => .ok []

/-- A source reporting one dependency for the root, for the depth-bound
scenario of §8. -/
def srcRootDep : String → Except String (List String)
  | "A" => .ok ["B"]
  | _ => .ok []

/-- A source whose dependency list for `A` repeats the same name (as a
static test repository may, or as the registry extractor does for one id
declared at two versions). -/
def srcDupDeps : String → Except String (List String)
  | "A" => .ok ["B", "B"]
  | _ => .ok []

/-- The filter scenario source of §8: `App -> [TestUtils, Core]`,
`Core -> []`. -/
def srcFilterScenario : String → Except String (List String)
  | "App" => .ok ["TestUtils", "Core"]
  | "Core" => .ok []
  | _ => .ok []

/-- The cycle-taint graph of §8: `{A: [B], B: [C], C: [B]}`. -/
def cycleGraph : Graph := [("A", ["B"]), ("B", ["C"]), ("C", ["B"])]

/-! ## Invariant predicates over builder states -/

/-- Every name recorded by a stage-4 builder state — graph key, graph
value, or name passed to the source — survives the filter. -/
def FilterInv (f : String) (st : BuildState) : Prop :=
  (∀ k ∈ keysG st.graph, should_skip_package k f = false) ∧
  (∀ p ∈ st.graph, ∀ v ∈ p.2, should_skip_package v f = false) ∧
  (∀ c ∈ st.calls, should_skip_package c f = false)

/-- Every dependency list stored in the graph is duplicate-free. -/
def NodupValues (st : BuildState) : Prop :=
  ∀ p ∈ st.graph, p.2.Nodup

/-- Relation between the states before and after a stage-5 traversal step
below the ancestor path `vis`: the step appends a duplicate-free batch of
freshly resolved names to `calls`, each of which was unprocessed and off
the path beforehand and is in the `processed` memo set afterwards;
`processed` grows monotonically. -/
def Calls5Spec (vis : List String) (st st' : BuildState5) : Prop :=
  (∃ batch, st'.calls = st.calls ++ batch ∧ batch.Nodup ∧
    ∀ x ∈ batch, x ∉ st.processed ∧ x ∉ vis ∧ x ∈ st'.processed) ∧
  ∀ y ∈ st.processed, y ∈ st'.processed

/-! ## Specification predicates for the sorter -/

/-- A name is a key of the graph (Python `node in graph`). -/
def isKeyG (g : Graph) (x : String) : Bool := (lookupG g x).isSome

/-- The dependency list of a key (Python `graph.get(node, [])`). -/
def depsOf (g : Graph) (x : String) : List String := (lookupG g x).getD []

/-- The result list is a topological order prefix-closed under key-edges:
every element is a key, and every key among its dependencies occurs
strictly earlier in the list. -/
def IsTopo (g : Graph) (r : List String) : Prop :=
  ∀ p x q, r = p ++ x :: q →
    isKeyG g x = true ∧ ∀ d ∈ depsOf g x, isKeyG g d = true → d ∈ p

/-- Invariant of the sorter state: the result list is duplicate-free,
consists exactly of the BLACK nodes, and is a topological order. -/
def SortInv (g : Graph) (s : SortState) : Prop :=
  s.result.Nodup ∧
  (∀ x ∈ s.result, s.color x = BLACK) ∧
  (∀ x, s.color x = BLACK → x ∈ s.result) ∧
  IsTopo g s.result

/-- What one sorter step does to the state: the result only grows at the
end, the set of GRAY nodes is unchanged, and BLACK nodes stay BLACK. -/
def StepOk (s s' : SortState) : Prop :=
  (∃ t, s'.result = s.result ++ t) ∧
  (∀ x, s'.color x = GRAY ↔ s.color x = GRAY) ∧
  (∀ x, s.color x = BLACK → s'.color x = BLACK)

/-- Number of distinct keys of the graph that are not GRAY: the quantity
that strictly decreases when the dfs of the sorter recurses, bounding the
recursion depth. -/
def notGrayCount (g : Graph) (s : SortState) : Nat :=
  ((keysG g).dedup.filter (fun k => decide (¬ s.color k = GRAY))).length

/-- Postcondition of the inner dfs of the sorter on `node` started at `s`:
unless fuel ran out, the invariant and the step conditions hold, and a
`true` verdict means `node` ended BLACK. -/
def DfsPost (g : Graph) (node : String) (s : SortState) :
    Option (Bool × SortState) → Prop
  | none => True
  | some (b, s') => SortInv g s' ∧ StepOk s s' ∧ (b = true → s'.color node = BLACK)

/-- Postcondition of the dependency loop over `l` started at `s`: unless
fuel ran out, the invariant and the step conditions hold, and a `true`
verdict means every key among `l` ended BLACK. -/
def VisitPost (g : Graph) (l : List String) (s : SortState) :
    Option (Bool × SortState) → Prop
  | none => True
  | some (b, s') => SortInv g s' ∧ StepOk s s' ∧
      (b = true → ∀ d ∈ l, isKeyG g d = true → s'.color d = BLACK)

/-! ## Generic lemmas about the loop combinator and dict operations -/

theorem runList_append (step : String → σ → σ) (l1 l2 : List String) (st : σ) :
    runList step (l1 ++ l2) st = runList step l2 (runList step l1 st) := by
  induction l1 generalizing st with
  | nil => rfl
  | cons d rest ih => simp [runList, ih]

theorem runList_id (step : String → σ → σ) (h : ∀ d s, step d s = s)
    (l : List String) (st : σ) : runList step l st = st := by
  induction l generalizing st with
  | nil => rfl
  | cons d rest ih => simp [runList, h, ih]

theorem runList_pres (step : String → σ → σ) (Q : σ → Prop)
    (h : ∀ d s, Q s → Q (step d s)) (l : List String) (st : σ) (hq : Q st) :
    Q (runList step l st) := by
  induction l generalizing st with
  | nil => exact hq
  | cons d rest ih => exact ih _ (h _ _ hq)

theorem mem_keysG_insertG {g : Graph} {k v x} (hx : x ∈ keysG (insertG g k v)) :
    x ∈ keysG g ∨ x = k := by
  induction g with
  | nil =>
    right
    simpa [insertG, keysG] using hx
  | cons q rest ih =>
    obtain ⟨a, b⟩ := q
    by_cases hk : k = a
    · rw [insertG, if_pos hk] at hx
      rcases (by simpa [keysG] using hx : x = k ∨ x ∈ keysG rest) with h | h
      · right; exact h
      · left; simp [keysG]; right; simpa [keysG] using h
    · rw [insertG, if_neg hk] at hx
      rcases (by simpa [keysG] using hx : x = a ∨ x ∈ keysG (insertG rest k v)) with h | h
      · left; simp [keysG, h]
      · rcases ih h with h' | h'
        · left; simp [keysG]; right; simpa [keysG] using h'
        · right; exact h'

theorem mem_insertG {g : Graph} {k v p} (hp : p ∈ insertG g k v) :
    p ∈ g ∨ p = (k, v) := by
  induction g with
  | nil =>
    right
    simpa [insertG] using hp
  | cons q rest ih =>
    obtain ⟨a, b⟩ := q
    by_cases hk : k = a
    · rw [insertG, if_pos hk] at hp
      rcases (by simpa using hp : p = (k, v) ∨ p ∈ rest) with h | h
      · right; exact h
      · left; simp [h]
    · rw [insertG, if_neg hk] at hp
      rcases (by simpa using hp : p = (a, b) ∨ p ∈ insertG rest k v) with h | h
      · left; simp [h]
      · rcases ih h with h' | h'
        · left; simp [h']
        · right; exact h'

/-! ## The filter invariant of the stage-4 builder (claim C7) -/

theorem FilterInv_graph_insert {f st k l} (h : FilterInv f st)
    (hk : should_skip_package k f = false)
    (hl : ∀ v ∈ l, should_skip_package v f = false) :
    FilterInv f { st with graph := insertG st.graph k l } := by
  obtain ⟨h1, h2, h3⟩ := h
  refine ⟨?_, ?_, h3⟩
  · intro x hx
    rcases mem_keysG_insertG hx with hx' | hx'
    · exact h1 x hx'
    · exact hx' ▸ hk
  · intro p hp v hv
    rcases mem_insertG hp with hp' | hp'
    · exact h2 p hp' v hv
    · exact hl v (by simpa [hp'] using hv)

theorem FilterInv_calls_append {f st c} (h : FilterInv f st)
    (hc : should_skip_package c f = false) :
    FilterInv f { st with calls := st.calls ++ [c] } := by
  obtain ⟨h1, h2, h3⟩ := h
  refine ⟨h1, h2, ?_⟩
  intro x hx
  rcases List.mem_append.1 hx with hx' | hx'
  · exact h3 x hx'
  · simp at hx'
    exact hx' ▸ hc

theorem dfs4_filter_inv (resolve : String → Except String (List String)) (f : String) :
    ∀ fuel cur vis st, FilterInv f st →
      FilterInv f (dfs_build_graph4 resolve f fuel cur vis st) := by
  intro fuel
  induction fuel with
  | zero => intro _ _ _ h; simpa [dfs_build_graph4] using h
  | succ fuel ih =>
    intro cur vis st h
    rw [dfs_build_graph4]
    by_cases hs : should_skip_package cur f = true
    · simpa [hs] using h
    · rw [Bool.not_eq_true] at hs
      simp only [hs, Bool.false_eq_true, if_false]
      by_cases hv : cur ∈ vis
      · simpa [hv] using h
      · simp only [if_neg hv]
        have h1 : FilterInv f (if (lookupG st.graph cur).isSome then st
            else { st with graph := insertG st.graph cur [] }) := by
          by_cases hg : (lookupG st.graph cur).isSome
          · simpa [hg] using h
          · simp only [hg, if_false]
            exact FilterInv_graph_insert h hs (by intro v hv'; simp at hv')
        have h2 := FilterInv_calls_append h1 hs
        rcases hr : resolve cur with e | deps
        · simp only [hr]
          exact ⟨h2.1, h2.2.1, h2.2.2⟩
        · simp only [hr]
          have hfd : ∀ v ∈ deps.filter (fun dep => ! should_skip_package dep f),
              should_skip_package v f = false := by
            intro v hv'
            have := List.of_mem_filter hv'
            simpa using this
          have h3 := FilterInv_graph_insert h2 hs hfd
          exact runList_pres _ (FilterInv f)
            (by
              intro d s hq
              by_cases hc : (lookupG s.graph d).isNone ∨ 1 ≤ fuel
              · simp only [if_pos hc]
                exact ih d (vis ++ [cur]) s hq
              · simp only [if_neg hc]
                exact hq)
            _ _ h3

/-! ## Duplicate-free values under a duplicate-free source (claim C5) -/

theorem NodupValues_graph_insert {st k l} (h : NodupValues st) (hl : l.Nodup) :
    NodupValues { st with graph := insertG st.graph k l } := by
  intro p hp
  rcases mem_insertG hp with hp' | hp'
  · exact h p hp'
  · simpa [hp'] using hl

theorem dfs4_nodup_values (resolve : String → Except String (List String)) (f : String)
    (hsrc : ∀ n l, resolve n = .ok l → l.Nodup) :
    ∀ fuel cur vis st, NodupValues st →
      NodupValues (dfs_build_graph4 resolve f fuel cur vis st) := by
  intro fuel
  induction fuel with
  | zero => intro _ _ _ h; simpa [dfs_build_graph4] using h
  | succ fuel ih =>
    intro cur vis st h
    rw [dfs_build_graph4]
    by_cases hs : should_skip_package cur f = true
    · simpa [hs] using h
    · rw [Bool.not_eq_true] at hs
      simp only [hs, Bool.false_eq_true, if_false]
      by_cases hv : cur ∈ vis
      · simpa [hv] using h
      · simp only [if_neg hv]
        have h1 : NodupValues (if (lookupG st.graph cur).isSome then st
            else { st with graph := insertG st.graph cur [] }) := by
          by_cases hg : (lookupG st.graph cur).isSome
          · simpa [hg] using h
          · simp only [hg, if_false]
            exact NodupValues_graph_insert h List.nodup_nil
        rcases hr : resolve cur with e | deps
        · simp only [hr]
          exact h1
        · simp only [hr]
          refine runList_pres _ NodupValues ?_ _ _ ?_
          · intro d s hq
            by_cases hc : (lookupG s.graph d).isNone ∨ 1 ≤ fuel
            · simp only [if_pos hc]
              exact ih d (vis ++ [cur]) s hq
            · simp only [if_neg hc]
              exact hq
          · exact NodupValues_graph_insert h1 ((hsrc cur deps hr).filter _)

/-! ## Each name resolved at most once by the stage-5 builder (claim C1) -/

theorem Calls5Spec_rfl (vis : List String) (st : BuildState5) : Calls5Spec vis st st :=
  ⟨⟨[], by simp, List.nodup_nil, by simp⟩, fun _ hy => hy⟩

theorem Calls5Spec_trans {vis s1 s2 s3} (h12 : Calls5Spec vis s1 s2)
    (h23 : Calls5Spec vis s2 s3) : Calls5Spec vis s1 s3 := by
  obtain ⟨⟨b1, hc1, hn1, hx1⟩, hm1⟩ := h12
  obtain ⟨⟨b2, hc2, hn2, hx2⟩, hm2⟩ := h23
  refine ⟨⟨b1 ++ b2, by rw [hc2, hc1, List.append_assoc], ?_, ?_⟩, fun y hy => hm2 y (hm1 y hy)⟩
  · refine hn1.append hn2 ?_
    intro x hxb1 hxb2
    exact (hx2 x hxb2).1 ((hx1 x hxb1).2.2)
  · intro x hx
    rcases List.mem_append.1 hx with hb | hb
    · exact ⟨(hx1 x hb).1, (hx1 x hb).2.1, hm2 x (hx1 x hb).2.2⟩
    · refine ⟨fun hp => (hx2 x hb).1 (hm1 x hp), (hx2 x hb).2.1, (hx2 x hb).2.2⟩

theorem runList5_spec (resolve : String → Except String (List String)) (f : String)
    (fuel : Nat) (vis : List String)
    (ih : ∀ cur st, Calls5Spec vis st (dfs_build_graph5 resolve f fuel cur vis st)) :
    ∀ l st, Calls5Spec vis st
      (runList (fun dep s => dfs_build_graph5 resolve f fuel dep vis s) l st) := by
  intro l
  induction l with
  | nil => intro st; exact Calls5Spec_rfl vis st
  | cons d rest ihl =>
    intro st
    exact Calls5Spec_trans (ih d st) (ihl _)

theorem dfs5_calls_spec (resolve : String → Except String (List String)) (f : String) :
    ∀ fuel cur vis st, Calls5Spec vis st (dfs_build_graph5 resolve f fuel cur vis st) := by
  intro fuel
  induction fuel with
  | zero => intro cur vis st; exact Calls5Spec_rfl vis st
  | succ fuel ih =>
    intro cur vis st
    rw [dfs_build_graph5]
    by_cases hs : should_skip_package cur f = true
    · simp only [hs, if_true]
      exact Calls5Spec_rfl vis st
    · rw [Bool.not_eq_true] at hs
      simp only [hs, Bool.false_eq_true, if_false]
      by_cases hv : cur ∈ vis
      · simp only [if_pos hv]
        exact Calls5Spec_rfl vis st
      · simp only [if_neg hv]
        by_cases hp : cur ∈ st.processed
        · simp only [if_pos hp]
          exact Calls5Spec_rfl vis st
        · simp only [if_neg hp]
          rcases hr : resolve cur with e | deps
          · simp only [hr]
            refine ⟨⟨[cur], by simp, List.nodup_singleton cur, ?_⟩, ?_⟩
            · intro x hx
              rw [List.mem_singleton] at hx
              subst hx
              exact ⟨hp, hv, by simp⟩
            · intro y hy
              simp only [List.mem_append]
              exact Or.inl hy
          · simp only [hr]
            have hloop := runList5_spec resolve f fuel (vis ++ [cur])
              (fun c s => ih c (vis ++ [cur]) s)
              (deps.filter (fun dep => ! should_skip_package dep f))
              ⟨insertG st.graph cur (deps.filter (fun dep => ! should_skip_package dep f)),
                st.processed, st.calls ++ [cur], st.log⟩
            obtain ⟨⟨b, hc, hn, hx⟩, hm⟩ := hloop
            refine ⟨⟨cur :: b, ?_, ?_, ?_⟩, ?_⟩
            · simp only [hc]
              simp
            · refine List.nodup_cons.2 ⟨?_, hn⟩
              intro hcb
              exact (hx cur hcb).2.1 (by simp)
            · intro x hxm
              rcases List.mem_cons.1 hxm with hxc | hxb
              · subst hxc
                exact ⟨hp, hv, by simp⟩
              · refine ⟨(hx x hxb).1, ?_, ?_⟩
                · intro hxv
                  exact (hx x hxb).2.1 (List.mem_append.2 (Or.inl hxv))
                · simp only [List.mem_append]
                  exact Or.inl (hx x hxb).2.2
            · intro y hy
              simp only [List.mem_append]
              exact Or.inl (hm y hy)

/-! ## Claim theorems about the graph builder -/

/-- Claim C1 (amended): the stage-5 builder, which keeps the global
`processed` memo set, passes each package name to the dependency source at
most once per run, for every source, root, depth bound and filter.  (The
claim as frozen also covers the stage-4 builder, which has no memo set;
see the counterexample.) -/
theorem c1_stage5_resolve_at_most_once
    (resolve : String → Except String (List String))
    (root : String) (max_depth : Nat) (f : String) :
    (build_graph5 resolve root max_depth f).calls.Nodup := by
  obtain ⟨⟨b, hc, hn, _⟩, _⟩ :=
    dfs5_calls_spec resolve f (max_depth + 1) root [] ⟨[], [], [], []⟩
  have : (build_graph5 resolve root max_depth f).calls = b := by
    rw [build_graph5, hc]
    rfl
  rw [this]
  exact hn

/-- Claim C1, counterexample: on the diamond source of §8 with unlimited
depth, the stage-4 builder (main4.py lines 111-158) queries the source for
D twice, so its list of resolved names is not duplicate-free. -/
theorem c1_counterexample :
    (build_graph4 srcDiamond "A" 10 "").calls = ["A", "B", "D", "C", "D"] ∧
    (build_graph4 srcDiamond "A" 10 "").calls.count "D" = 2 ∧
    ¬ (build_graph4 srcDiamond "A" 10 "").calls.Nodup := by
  refine ⟨by decide, by decide, by decide⟩

/-- Claim C4 (amended): with maxDepth = 0 the graph produced for root A
has exactly the one key A, but the entry of A lists the filtered direct
dependencies as dangling edge targets rather than being empty.  Holds for
both the stage-4 and the stage-5 builder. -/
theorem c4_depth_zero_graph (resolve : String → Except String (List String))
    (root : String) (f : String) (ds : List String)
    (hskip : should_skip_package root f = false)
    (hres : resolve root = .ok ds) :
    (build_graph4 resolve root 0 f).graph
      = [(root, ds.filter (fun d => ! should_skip_package d f))] ∧
    (build_graph5 resolve root 0 f).graph
      = [(root, ds.filter (fun d => ! should_skip_package d f))] := by
  constructor
  · rw [build_graph4, dfs_build_graph4]
    simp only [hskip, Bool.false_eq_true, if_false, List.not_mem_nil, if_neg,
      lookupG, Option.isSome_none, hres]
    rw [runList_id]
    · simp [insertG]
    · intro d s
      by_cases hc : (lookupG s.graph d).isNone ∨ 1 ≤ 0
      · simp only [if_pos hc]
        rfl
      · simp only [if_neg hc]
  · rw [build_graph5, dfs_build_graph5]
    simp only [hskip, Bool.false_eq_true, if_false, List.not_mem_nil, if_neg, hres]
    rw [runList_id]
    · simp [insertG]
    · intro d s
      rfl

/-- Claim C4, counterexample: with a source reporting A -> [B] and
maxDepth = 0, the stage-4 builder's graph is exactly the one-key map
sending A to [B], not the map sending A to the empty list that the claim
requires. -/
theorem c4_counterexample :
    (build_graph4 srcRootDep "A" 0 "").graph = [("A", ["B"])] ∧
    (build_graph4 srcRootDep "A" 0 "").graph ≠ [("A", [])] := by
  refine ⟨by decide, by decide⟩

/-- Claim C5 (amended): if every dependency list returned by the source is
duplicate-free, then every dependency list stored in the graph built by
the stage-4 builder is duplicate-free (the builder filters but never
introduces duplicates).  The builder itself does not deduplicate, so a
source that repeats a name yields a graph value that repeats it; see the
counterexample. -/
theorem c5_nodup_values_of_nodup_source
    (resolve : String → Except String (List String))
    (root : String) (max_depth : Nat) (f : String)
    (hsrc : ∀ n l, resolve n = .ok l → l.Nodup) :
    ∀ p ∈ (build_graph4 resolve root max_depth f).graph, p.2.Nodup := by
  have h := dfs4_nodup_values resolve f hsrc (max_depth + 1) root [] ⟨[], [], []⟩
    (by intro p hp; simp at hp)
  exact h

/-- Claim C5, counterexample: the registry extractor deduplicates by the
pair of id and version, so one id declared at two versions yields a
repeated name, and the builder stores the repeated name verbatim: the
graph value under A is [B, B]. -/
theorem c5_counterexample :
    extract_dependencies [[("B", "1.0"), ("B", "2.0")]] [] = ["B", "B"] ∧
    (build_graph4 srcDupDeps "A" 2 "").graph = [("A", ["B", "B"]), ("B", [])] ∧
    ¬ (["B", "B"] : List String).Nodup := by
  refine ⟨by decide, by decide, by decide⟩

/-- Claim C7: every name recorded anywhere by a stage-4 builder run — as a
graph key, inside any dependency list, or as a name passed to the
dependency source — survives the filter, i.e. should_skip_package is false
for it.  For a non-empty filter substring this says no name containing the
substring appears as key or value, and the source is never queried for a
skipped name (its dependencies are never explored). -/
theorem c7_filter_invariant (resolve : String → Except String (List String))
    (root : String) (max_depth : Nat) (f name : String)
    (h : name ∈ keysG (build_graph4 resolve root max_depth f).graph ∨
      (∃ p, p ∈ (build_graph4 resolve root max_depth f).graph ∧ name ∈ p.2) ∨
      name ∈ (build_graph4 resolve root max_depth f).calls) :
    should_skip_package name f = false := by
  have hinv : FilterInv f (build_graph4 resolve root max_depth f) := by
    apply dfs4_filter_inv
    refine ⟨?_, ?_, ?_⟩ <;> intro x hx <;> simp [keysG] at hx
  rcases h with h | h | h
  · exact hinv.1 name h
  · obtain ⟨p, hp, hnp⟩ := h
    exact hinv.2.1 p hp name hnp
  · exact hinv.2.2 name h

/-- Claim C7, witness: in the filter scenario of §8 (filter "Test", root
App depending on TestUtils and Core), Core is a key of the resulting graph
and indeed does not match the filter. -/
theorem c7_filter_invariant_witness : should_skip_package "Core" "Test" = false := by
  exact c7_filter_invariant srcFilterScenario "App" 5 "Test" "Core" (Or.inl (by decide))

/-- Claim C9: the traversal guards make a call a terminal no-op: a node
matching the filter, a node already on the ancestor path, and an exhausted
depth budget (fuel 0 encodes depth exceeding maxDepth) each return the
state unchanged, in both the stage-4 and stage-5 builders, so the
recursion depth is bounded by the depth budget and a cycle in the source
cannot cause unbounded recursion. -/
theorem c9_guards_terminal (resolve : String → Except String (List String))
    (f : String) (fuel : Nat) (cur : String) (vis : List String)
    (st : BuildState) (st5 : BuildState5)
    (h : should_skip_package cur f = true ∨ cur ∈ vis ∨ fuel = 0) :
    dfs_build_graph4 resolve f fuel cur vis st = st ∧
    dfs_build_graph5 resolve f fuel cur vis st5 = st5 := by
  rcases h with hs | hv | h0
  · cases fuel with
    | zero => exact ⟨rfl, rfl⟩
    | succ fuel =>
      constructor
      · rw [dfs_build_graph4]
        simp [hs]
      · rw [dfs_build_graph5]
        simp [hs]
  · cases fuel with
    | zero => exact ⟨rfl, rfl⟩
    | succ fuel =>
      constructor
      · rw [dfs_build_graph4]
        by_cases hs : should_skip_package cur f = true <;> simp [hs, hv]
      · rw [dfs_build_graph5]
        by_cases hs : should_skip_package cur f = true <;> simp [hs, hv]
  · subst h0
    exact ⟨rfl, rfl⟩

/-- Claim C9, witness: a node already on the ancestor path is a no-op for
both builders at a concrete state. -/
theorem c9_guards_terminal_witness :
    dfs_build_graph4 srcDiamond "" 3 "A" ["A"] ⟨[], [], []⟩ = ⟨[], [], []⟩ ∧
    dfs_build_graph5 srcDiamond "" 3 "A" ["A"] ⟨[], [], [], []⟩ = ⟨[], [], [], []⟩ := by
  exact c9_guards_terminal srcDiamond "" 3 "A" ["A"] ⟨[], [], []⟩ ⟨[], [], [], []⟩
    (Or.inr (Or.inl (by decide)))

/-- Claim C4, witness: with source A -> [B], empty filter and maxDepth 0,
both builders produce the single-key graph sending A to [B]. -/
theorem c4_depth_zero_graph_witness :
    (build_graph4 srcRootDep "A" 0 "").graph = [("A", ["B"])] ∧
    (build_graph5 srcRootDep "A" 0 "").graph = [("A", ["B"])] := by
  have h := c4_depth_zero_graph srcRootDep "A" "" ["B"] (by decide) rfl
  exact ⟨h.1.trans (by decide), h.2.trans (by decide)⟩

/-- Claim C5, witness: the diamond source returns duplicate-free lists, so
the dependency list stored under A in that run is duplicate-free. -/
theorem c5_nodup_values_witness : (["B", "C"] : List String).Nodup := by
  refine c5_nodup_values_of_nodup_source srcDiamond "A" 10 "" ?_ ("A", ["B", "C"]) (by decide)
  intro n l h
  unfold srcDiamond at h
  split at h <;> (cases h; decide)

/-- Claim C6: a resolution failure for one package does not escape the
builder.  In stage 4 the failing package keeps (or receives) an
explored-but-unresolved graph entry, the name is recorded as passed to the
source, a diagnostic is appended to the log, and nothing else changes; in
stage 5 the package is added to the processed set with a diagnostic and no
graph entry.  The loop over sibling dependencies always continues: running
it on a split list equals running the two halves in sequence.  In the §8
unresolved-node scenario (B fails under root A with sibling C) the stage-4
run still completes with a graph for A, B and C, one diagnostic, and an
install order for everything. -/
theorem c6_fetch_error_isolated (resolve : String → Except String (List String))
    (f : String) (fuel : Nat) (cur : String) (vis : List String)
    (st : BuildState) (st5 : BuildState5) (e : String)
    (step : String → BuildState → BuildState) (l1 l2 : List String)
    (hs : should_skip_package cur f = false) (hv : cur ∉ vis)
    (hp5 : cur ∉ st5.processed) (herr : resolve cur = .error e) :
    dfs_build_graph4 resolve f (fuel + 1) cur vis st =
      ⟨(if (lookupG st.graph cur).isSome then st.graph else insertG st.graph cur []),
        st.calls ++ [cur],
        st.log ++ ["warning: failed to fetch dependencies for " ++ cur ++ ": " ++ e]⟩ ∧
    dfs_build_graph5 resolve f (fuel + 1) cur vis st5 =
      ⟨st5.graph, st5.processed ++ [cur], st5.calls ++ [cur],
        st5.log ++ ["Error getting dependencies for " ++ cur ++ ": " ++ e]⟩ ∧
    runList step (l1 ++ l2) st = runList step l2 (runList step l1 st) ∧
    (build_graph4 srcFails "A" 2 "").graph = [("A", ["B", "C"]), ("B", []), ("C", [])] ∧
    (build_graph4 srcFails "A" 2 "").log
      = ["warning: failed to fetch dependencies for B: boom"] ∧
    topological_sort (build_graph4 srcFails "A" 2 "").graph = some ["B", "C", "A"] := by
  refine ⟨?_, ?_, runList_append step l1 l2 st, by decide, by decide, by rfl⟩
  · rw [dfs_build_graph4]
    simp only [hs, Bool.false_eq_true, if_false, if_neg hv, herr]
    by_cases hg : (lookupG st.graph cur).isSome
    · simp [hg]
    · simp [hg]
  · rw [dfs_build_graph5]
    simp only [hs, Bool.false_eq_true, if_false, if_neg hv, if_neg hp5, herr]

/-- Claim C6, witness: expanding B (which fails) from under A at a
concrete state records B as explored with an empty entry and one
diagnostic, leaving the rest of the state intact. -/
theorem c6_fetch_error_isolated_witness :
    dfs_build_graph4 srcFails "" 1 "B" ["A"] ⟨[("A", ["B", "C"])], ["A"], []⟩ =
      ⟨[("A", ["B", "C"]), ("B", [])], ["A", "B"],
        ["warning: failed to fetch dependencies for B: boom"]⟩ := by
  have h := c6_fetch_error_isolated srcFails "" 0 "B" ["A"]
    ⟨[("A", ["B", "C"])], ["A"], []⟩ ⟨[], [], [], []⟩ "boom" (fun _ s => s) [] []
    (by decide) (by decide) (by decide) rfl
  exact h.1.trans (by decide)

/-! ## List and index utilities for the sorter proofs -/

theorem setColor_self (c : String → Nat) (n : String) (v : Nat) :
    setColor c n v n = v := by
  simp [setColor]

theorem setColor_ne (c : String → Nat) (n : String) (v : Nat) {x : String}
    (h : x ≠ n) : setColor c n v x = c x := by
  simp [setColor, h]

theorem isKey_of_mem_keysG {g : Graph} {x : String} (h : x ∈ keysG g) :
    isKeyG g x = true := by
  induction g with
  | nil => simp [keysG] at h
  | cons q rest ih =>
    obtain ⟨a, b⟩ := q
    by_cases hx : x = a
    · simp [isKeyG, lookupG, hx]
    · rcases (by simpa [keysG] using h : x = a ∨ x ∈ keysG rest) with h' | h'
      · exact absurd h' hx
      · simpa [isKeyG, lookupG, hx] using ih h'

theorem mem_keysG_of_isKey {g : Graph} {x : String} (h : isKeyG g x = true) :
    x ∈ keysG g := by
  induction g with
  | nil => simp [isKeyG, lookupG] at h
  | cons q rest ih =>
    obtain ⟨a, b⟩ := q
    by_cases hx : x = a
    · simp [keysG, hx]
    · simp only [isKeyG, lookupG, if_neg hx] at h
      simp [keysG]
      exact Or.inr (by simpa [keysG] using ih h)

theorem idxOf_append_self {p : List String} (q : List String) {a : String}
    (h : a ∉ p) : idxOf (p ++ a :: q) a = p.length := by
  induction p with
  | nil => simp [idxOf]
  | cons x t ih =>
    have hx : x ≠ a := fun hxa => h (by simp [hxa])
    have h' : a ∉ t := fun ha => h (List.mem_cons_of_mem x ha)
    simp [idxOf, hx, ih h']

theorem idxOf_append_mem {p : List String} (rest : List String) {b : String}
    (h : b ∈ p) : idxOf (p ++ rest) b < p.length := by
  induction p with
  | nil => simp at h
  | cons x t ih =>
    by_cases hx : x = b
    · simp [idxOf, hx]
    · have hb : b ∈ t := by
        rcases List.mem_cons.1 h with h' | h'
        · exact absurd h'.symm hx
        · exact h'
      simp only [List.cons_append, idxOf, if_neg hx, List.length_cons]
      exact Nat.succ_lt_succ (ih hb)

theorem idxOf_filter_lt {l : List String} {pr : String → Bool} {a b : String}
    (ha : a ∈ l.filter pr) (hb : b ∈ l.filter pr)
    (hlt : idxOf l b < idxOf l a) :
    idxOf (l.filter pr) b < idxOf (l.filter pr) a := by
  induction l with
  | nil => simp at ha
  | cons x t ih =>
    by_cases hxb : x = b
    · subst hxb
      have hpb : pr x = true := (List.mem_filter.1 hb).2
      have hab : a ≠ x := by
        intro hax
        subst hax
        simp [idxOf] at hlt
      simp only [List.filter_cons, hpb, if_pos, idxOf, if_pos rfl]
      rw [if_neg (fun h => hab h.symm)]
      exact Nat.succ_pos _
    · by_cases hxa : x = a
      · subst hxa
        simp only [idxOf, if_pos rfl, if_neg hxb] at hlt
        exact absurd hlt (Nat.not_lt_zero _)
      · have ha' : a ∈ t.filter pr := by
          rcases List.mem_filter.1 ha with ⟨hm, hp⟩
          rcases List.mem_cons.1 hm with h' | h'
          · exact absurd h'.symm hxa
          · exact List.mem_filter.2 ⟨h', hp⟩
        have hb' : b ∈ t.filter pr := by
          rcases List.mem_filter.1 hb with ⟨hm, hp⟩
          rcases List.mem_cons.1 hm with h' | h'
          · exact absurd h'.symm hxb
          · exact List.mem_filter.2 ⟨h', hp⟩
        have hlt' : idxOf t b < idxOf t a := by
          simpa [idxOf, hxb, hxa] using hlt
        by_cases hpx : pr x = true
        · simp only [List.filter_cons, hpx, if_true]
          simpa [idxOf, hxb, hxa] using Nat.succ_lt_succ (ih ha' hb' hlt')
        · have hpx' : pr x = false := by simpa using hpx
          simp only [List.filter_cons, hpx', Bool.false_eq_true, if_false]
          exact ih ha' hb' hlt'

theorem filter_len_mono {l : List String} {pr qr : String → Bool}
    (h : ∀ x, qr x = true → pr x = true) :
    (l.filter qr).length ≤ (l.filter pr).length := by
  induction l with
  | nil => simp
  | cons x t ih =>
    by_cases hq : qr x = true
    · simp only [List.filter_cons, hq, if_true, h x hq, List.length_cons]
      exact Nat.succ_le_succ ih
    · have hq' : qr x = false := by simpa using hq
      simp only [List.filter_cons, hq', Bool.false_eq_true, if_false]
      by_cases hp : pr x = true
      · simp only [hp, if_true, List.length_cons]
        exact Nat.le_succ_of_le ih
      · have hp' : pr x = false := by simpa using hp
        simp only [hp', Bool.false_eq_true, if_false]
        exact ih

theorem filter_len_lt {l : List String} {pr qr : String → Bool}
    (h : ∀ x, qr x = true → pr x = true) {a : String} (ha : a ∈ l)
    (hpa : pr a = true) (hqa : qr a = false) :
    (l.filter qr).length < (l.filter pr).length := by
  induction l with
  | nil => simp at ha
  | cons x t ih =>
    by_cases hx : x = a
    · subst hx
      simp only [List.filter_cons, hqa, Bool.false_eq_true, if_false, hpa, if_pos,
        List.length_cons]
      exact Nat.lt_succ_of_le (filter_len_mono h)
    · have ha' : a ∈ t := by
        rcases List.mem_cons.1 ha with h' | h'
        · exact absurd h'.symm hx
        · exact h'
      by_cases hq : qr x = true
      · simp only [List.filter_cons, hq, if_true, h x hq, List.length_cons]
        exact Nat.succ_lt_succ (ih ha')
      · have hq' : qr x = false := by simpa using hq
        simp only [List.filter_cons, hq', Bool.false_eq_true, if_false]
        by_cases hp : pr x = true
        · simp only [hp, if_true, List.length_cons]
          exact Nat.lt_succ_of_lt (ih ha')
        · have hp' : pr x = false := by simpa using hp
          simp only [hp', Bool.false_eq_true, if_false]
          exact ih ha'

theorem append_singleton_split {r p q : List String} {node x : String}
    (h : r ++ [node] = p ++ x :: q) :
    (p = r ∧ x = node ∧ q = []) ∨ ∃ q', q = q' ++ [node] ∧ r = p ++ x :: q' := by
  rcases List.eq_nil_or_concat q with hq | ⟨q', a, hq⟩
  · subst hq
    have h2 := List.append_inj' h (by simp)
    refine Or.inl ⟨h2.1.symm, ?_, rfl⟩
    have h3 : [node] = [x] := h2.2
    simpa using h3.symm
  · subst hq
    have h' : r ++ [node] = (p ++ x :: q') ++ [a] := by
      rw [List.concat_eq_append] at h
      simpa using h
    have h2 := List.append_inj' h' (by simp)
    have ha : node = a := by simpa using h2.2
    refine Or.inr ⟨q', ?_, h2.1⟩
    simp [List.concat_eq_append, ha]

/-! ## Step lemmas for the sorter invariant -/

theorem StepOk_rfl (s : SortState) : StepOk s s :=
  ⟨⟨[], by simp⟩, fun _ => Iff.rfl, fun _ h => h⟩

theorem StepOk_trans {s1 s2 s3 : SortState} (h12 : StepOk s1 s2) (h23 : StepOk s2 s3) :
    StepOk s1 s3 := by
  obtain ⟨⟨t1, hr1⟩, hg1, hb1⟩ := h12
  obtain ⟨⟨t2, hr2⟩, hg2, hb2⟩ := h23
  exact ⟨⟨t1 ++ t2, by rw [hr2, hr1, List.append_assoc]⟩,
    fun x => (hg2 x).trans (hg1 x), fun x h => hb2 x (hb1 x h)⟩

theorem IsTopo_key_of_mem {g : Graph} {r : List String} (ht : IsTopo g r)
    {x : String} (hx : x ∈ r) : isKeyG g x = true := by
  obtain ⟨p, q, hr⟩ := List.append_of_mem hx
  exact (ht p x q hr).1

theorem IsTopo_append {g : Graph} {r : List String} {node : String}
    (ht : IsTopo g r) (hk : isKeyG g node = true)
    (hd : ∀ d ∈ depsOf g node, isKeyG g d = true → d ∈ r) :
    IsTopo g (r ++ [node]) := by
  intro p x q hr
  rcases append_singleton_split hr with ⟨hp, hx, hq⟩ | ⟨q', hq, hr'⟩
  · subst hp
    subst hx
    exact ⟨hk, hd⟩
  · exact ht p x q' hr'

theorem SortInv_set_gray {g : Graph} {s : SortState} {node : String}
    (h : SortInv g s) (hb : s.color node ≠ BLACK) :
    SortInv g { s with color := setColor s.color node GRAY } := by
  obtain ⟨h1, h2, h3, h4⟩ := h
  refine ⟨h1, ?_, ?_, h4⟩
  · intro x hx
    have hxn : x ≠ node := by
      intro he
      subst he
      exact hb (h2 x hx)
    show setColor s.color node GRAY x = BLACK
    rw [setColor_ne _ _ _ hxn]
    exact h2 x hx
  · intro x hx
    have hx' : setColor s.color node GRAY x = BLACK := hx
    by_cases hxn : x = node
    · subst hxn
      rw [setColor_self] at hx'
      exact absurd hx' (by simp [GRAY, BLACK])
    · rw [setColor_ne _ _ _ hxn] at hx'
      exact h3 x hx'

theorem notGrayCount_congr {g : Graph} {s s' : SortState}
    (h : ∀ x, s'.color x = GRAY ↔ s.color x = GRAY) :
    notGrayCount g s' = notGrayCount g s := by
  unfold notGrayCount
  congr 1
  apply List.filter_congr
  intro x _
  have := h x
  by_cases hx : s.color x = GRAY
  · simp [hx, (h x).2 hx]
  · have hx' : ¬ s'.color x = GRAY := fun hc => hx ((h x).1 hc)
    simp [hx, hx']

theorem notGrayCount_set_gray_lt {g : Graph} {s : SortState} {node : String}
    (hk : isKeyG g node = true) (hng : s.color node ≠ GRAY) :
    notGrayCount g { s with color := setColor s.color node GRAY } < notGrayCount g s := by
  unfold notGrayCount
  refine filter_len_lt ?_ (List.mem_dedup.2 (mem_keysG_of_isKey hk))
    (decide_eq_true_iff.2 hng) ?_
  · intro x hx
    have h' : ¬ setColor s.color node GRAY x = GRAY := decide_eq_true_iff.1 hx
    by_cases hxn : x = node
    · subst hxn
      rw [setColor_self] at h'
      exact absurd rfl h'
    · rw [setColor_ne _ _ _ hxn] at h'
      exact decide_eq_true_iff.2 h'
  · simp [setColor_self]

/-! ## The dfs of the sorter maintains the invariant -/

theorem GRAY_ne_BLACK : GRAY ≠ BLACK := by decide
theorem WHITE_ne_GRAY : WHITE ≠ GRAY := by decide
theorem WHITE_ne_BLACK : WHITE ≠ BLACK := by decide
theorem BLACK_ne_GRAY : BLACK ≠ GRAY := by decide

theorem visitList_spec (g : Graph)
    (visit : String → SortState → Option (Bool × SortState))
    (hvisit : ∀ d s, SortInv g s → isKeyG g d = true → DfsPost g d s (visit d s)) :
    ∀ l s, SortInv g s → VisitPost g l s (visitList g visit l s) := by
  intro l
  induction l with
  | nil =>
    intro s hs
    exact ⟨hs, StepOk_rfl s, fun _ d hd => absurd hd (List.not_mem_nil d)⟩
  | cons d rest ih =>
    intro s hs
    simp only [visitList]
    by_cases hd : (lookupG g d).isNone
    · simp only [if_pos hd]
      have h := ih s hs
      cases hrl : visitList g visit rest s with
      | none => trivial
      | some bs =>
        obtain ⟨b, s'⟩ := bs
        rw [hrl] at h
        obtain ⟨h1, h2, h3⟩ := h
        refine ⟨h1, h2, ?_⟩
        intro hb x hx hkx
        rcases List.mem_cons.1 hx with he | he
        · subst he
          rw [isKeyG, Option.isNone_iff_eq_none.1 hd] at hkx
          cases hkx
        · exact h3 hb x he hkx
    · simp only [if_neg hd]
      have hkd : isKeyG g d = true := by
        unfold isKeyG
        cases hlk : lookupG g d with
        | none => rw [hlk] at hd; simp at hd
        | some v => simp
      have hv := hvisit d s hs hkd
      cases hvd : visit d s with
      | none => trivial
      | some bs =>
        obtain ⟨b, s1⟩ := bs
        rw [hvd] at hv
        obtain ⟨hv1, hv2, hv3⟩ := hv
        cases b with
        | false =>
          show VisitPost g (d :: rest) s (some (false, s1))
          exact ⟨hv1, hv2, fun hb => absurd hb (by simp)⟩
        | true =>
          have h := ih s1 hv1
          show VisitPost g (d :: rest) s (visitList g visit rest s1)
          cases hrl : visitList g visit rest s1 with
          | none => trivial
          | some bs2 =>
            obtain ⟨b2, s2⟩ := bs2
            rw [hrl] at h
            obtain ⟨h1, h2, h3⟩ := h
            refine ⟨h1, StepOk_trans hv2 h2, ?_⟩
            intro hb x hx hkx
            rcases List.mem_cons.1 hx with he | he
            · subst he
              exact h2.2.2 x (hv3 rfl)
            · exact h3 hb x he hkx

theorem sortDfs_spec (g : Graph) :
    ∀ fuel node s, SortInv g s → isKeyG g node = true →
      DfsPost g node s (sortDfs g fuel node s) := by
  intro fuel
  induction fuel with
  | zero =>
    intro node s hs hk
    trivial
  | succ fuel ih =>
    intro node s hs hk
    simp only [sortDfs]
    by_cases hg : s.color node = GRAY
    · simp only [if_pos hg]
      exact ⟨⟨hs.1, hs.2.1, hs.2.2.1, hs.2.2.2⟩,
        ⟨⟨[], by simp⟩, fun _ => Iff.rfl, fun _ h => h⟩,
        fun hb => absurd hb (by simp)⟩
    · simp only [if_neg hg]
      by_cases hbl : s.color node = BLACK
      · simp only [if_pos hbl]
        exact ⟨hs, StepOk_rfl s, fun _ => hbl⟩
      · simp only [if_neg hbl]
        have hs1 : SortInv g { s with color := setColor s.color node GRAY } :=
          SortInv_set_gray hs hbl
        have hvl := visitList_spec g (fun d t => sortDfs g fuel d t)
          (fun d t ht hkd => ih d t ht hkd) ((lookupG g node).getD [])
          { s with color := setColor s.color node GRAY } hs1
        cases hvl2 : visitList g (fun d t => sortDfs g fuel d t)
            ((lookupG g node).getD [])
            { s with color := setColor s.color node GRAY } with
        | none => trivial
        | some bs =>
          obtain ⟨b, s2⟩ := bs
          rw [hvl2] at hvl
          obtain ⟨h1, h2, h3⟩ := hvl
          have hng : s2.color node = GRAY := by
            have := (h2.2.1 node).2 (by
              show setColor s.color node GRAY node = GRAY
              rw [setColor_self])
            exact this
          have hnm : node ∉ s2.result := by
            intro hmem
            exact GRAY_ne_BLACK (hng ▸ h1.2.1 node hmem)
          cases b with
          | false =>
            show DfsPost g node s (some (false, { s2 with
              inCycle := s2.inCycle ++ [node],
              color := setColor s2.color node WHITE }))
            refine ⟨⟨h1.1, ?_, ?_, h1.2.2.2⟩, ⟨?_, ?_, ?_⟩,
              fun hb => absurd hb (by simp)⟩
            · intro x hx
              have hxn : x ≠ node := fun he => hnm (he ▸ hx)
              show setColor s2.color node WHITE x = BLACK
              rw [setColor_ne _ _ _ hxn]
              exact h1.2.1 x hx
            · intro x hx
              have hx' : setColor s2.color node WHITE x = BLACK := hx
              by_cases hxn : x = node
              · subst hxn
                rw [setColor_self] at hx'
                exact absurd hx' WHITE_ne_BLACK
              · rw [setColor_ne _ _ _ hxn] at hx'
                exact h1.2.2.1 x hx'
            · exact h2.1
            · intro x
              by_cases hxn : x = node
              · subst hxn
                constructor
                · intro hx
                  have hx' : setColor s2.color x WHITE x = GRAY := hx
                  rw [setColor_self] at hx'
                  exact absurd hx' WHITE_ne_GRAY
                · intro hx
                  exact absurd hx hg
              · constructor
                · intro hx
                  have hx' : setColor s2.color node WHITE x = GRAY := hx
                  rw [setColor_ne _ _ _ hxn] at hx'
                  have := (h2.2.1 x).1 hx'
                  have h'' : setColor s.color node GRAY x = GRAY := this
                  rw [setColor_ne _ _ _ hxn] at h''
                  exact h''
                · intro hx
                  show setColor s2.color node WHITE x = GRAY
                  rw [setColor_ne _ _ _ hxn]
                  refine (h2.2.1 x).2 ?_
                  show setColor s.color node GRAY x = GRAY
                  rw [setColor_ne _ _ _ hxn]
                  exact hx
            · intro x hx
              have hxn : x ≠ node := fun he => hbl (he ▸ hx)
              show setColor s2.color node WHITE x = BLACK
              rw [setColor_ne _ _ _ hxn]
              refine h2.2.2 x ?_
              show setColor s.color node GRAY x = BLACK
              rw [setColor_ne _ _ _ hxn]
              exact hx
          | true =>
            have hdeps : ∀ d ∈ depsOf g node, isKeyG g d = true → d ∈ s2.result :=
              fun d hd hkd => h1.2.2.1 d (h3 rfl d hd hkd)
            show DfsPost g node s (some (true, { s2 with
              color := setColor s2.color node BLACK,
              result := s2.result ++ [node] }))
            refine ⟨⟨?_, ?_, ?_, ?_⟩, ⟨?_, ?_, ?_⟩, fun _ => ?_⟩
            · refine List.nodup_append.2 ⟨h1.1, List.nodup_singleton node, ?_⟩
              intro a ha ha'
              rw [List.mem_singleton] at ha'
              subst ha'
              exact hnm ha
            · intro x hx
              rcases List.mem_append.1 hx with hx' | hx'
              · have hxn : x ≠ node := fun he => hnm (he ▸ hx')
                show setColor s2.color node BLACK x = BLACK
                rw [setColor_ne _ _ _ hxn]
                exact h1.2.1 x hx'
              · rw [List.mem_singleton] at hx'
                subst hx'
                show setColor s2.color x BLACK x = BLACK
                rw [setColor_self]
            · intro x hx
              have hx' : setColor s2.color node BLACK x = BLACK := hx
              by_cases hxn : x = node
              · subst hxn
                exact List.mem_append.2 (Or.inr (by simp))
              · rw [setColor_ne _ _ _ hxn] at hx'
                exact List.mem_append.2 (Or.inl (h1.2.2.1 x hx'))
            · exact IsTopo_append h1.2.2.2 hk hdeps
            · obtain ⟨t, ht⟩ := h2.1
              exact ⟨t ++ [node], by
                show s2.result ++ [node] = s.result ++ (t ++ [node])
                rw [ht]
                exact List.append_assoc _ _ _⟩
            · intro x
              by_cases hxn : x = node
              · subst hxn
                constructor
                · intro hx
                  have hx' : setColor s2.color x BLACK x = GRAY := hx
                  rw [setColor_self] at hx'
                  exact absurd hx' BLACK_ne_GRAY
                · intro hx
                  exact absurd hx hg
              · constructor
                · intro hx
                  have hx' : setColor s2.color node BLACK x = GRAY := hx
                  rw [setColor_ne _ _ _ hxn] at hx'
                  have h'' : setColor s.color node GRAY x = GRAY := (h2.2.1 x).1 hx'
                  rw [setColor_ne _ _ _ hxn] at h''
                  exact h''
                · intro hx
                  show setColor s2.color node BLACK x = GRAY
                  rw [setColor_ne _ _ _ hxn]
                  refine (h2.2.1 x).2 ?_
                  show setColor s.color node GRAY x = GRAY
                  rw [setColor_ne _ _ _ hxn]
                  exact hx
            · intro x hx
              have hxn : x ≠ node := fun he => hbl (he ▸ hx)
              show setColor s2.color node BLACK x = BLACK
              rw [setColor_ne _ _ _ hxn]
              refine h2.2.2 x ?_
              show setColor s.color node GRAY x = BLACK
              rw [setColor_ne _ _ _ hxn]
              exact hx
            · show setColor s2.color node BLACK node = BLACK
              rw [setColor_self]

/-! ## Fuel sufficiency: the sorter never runs out of fuel -/

theorem visitList_isSome (g : Graph) (fuel : Nat)
    (hsome : ∀ d s, SortInv g s → isKeyG g d = true → notGrayCount g s < fuel →
      (sortDfs g fuel d s).isSome = true) :
    ∀ l s, SortInv g s → notGrayCount g s < fuel →
      (visitList g (fun d t => sortDfs g fuel d t) l s).isSome = true := by
  intro l
  induction l with
  | nil => intro s _ _; rfl
  | cons d rest ih =>
    intro s hs hf
    simp only [visitList]
    by_cases hd : (lookupG g d).isNone
    · simp only [if_pos hd]
      exact ih s hs hf
    · simp only [if_neg hd]
      have hkd : isKeyG g d = true := by
        unfold isKeyG
        cases hlk : lookupG g d with
        | none => rw [hlk] at hd; simp at hd
        | some v => simp
      have hissome := hsome d s hs hkd hf
      cases hvd : sortDfs g fuel d s with
      | none => rw [hvd] at hissome; simp at hissome
      | some bs =>
        obtain ⟨b, s1⟩ := bs
        have hpost := sortDfs_spec g fuel d s hs hkd
        rw [hvd] at hpost
        obtain ⟨h1, h2, _⟩ := hpost
        cases b with
        | false => rfl
        | true =>
          show (visitList g (fun d t => sortDfs g fuel d t) rest s1).isSome = true
          refine ih s1 h1 ?_
          rw [notGrayCount_congr h2.2.1]
          exact hf

theorem sortDfs_isSome (g : Graph) :
    ∀ fuel node s, SortInv g s → isKeyG g node = true → notGrayCount g s < fuel →
      (sortDfs g fuel node s).isSome = true := by
  intro fuel
  induction fuel with
  | zero =>
    intro node s _ _ hf
    exact absurd hf (Nat.not_lt_zero _)
  | succ fuel ih =>
    intro node s hs hk hf
    simp only [sortDfs]
    by_cases hg : s.color node = GRAY
    · simp only [if_pos hg]
      rfl
    · simp only [if_neg hg]
      by_cases hbl : s.color node = BLACK
      · simp only [if_pos hbl]
        rfl
      · simp only [if_neg hbl]
        have hs1 : SortInv g { s with color := setColor s.color node GRAY } :=
          SortInv_set_gray hs hbl
        have hf1 : notGrayCount g { s with color := setColor s.color node GRAY } < fuel := by
          have hlt := notGrayCount_set_gray_lt (s := s) hk hg
          omega
        have hvs := visitList_isSome g fuel ih ((lookupG g node).getD [])
          { s with color := setColor s.color node GRAY } hs1 hf1
        cases hvl2 : visitList g (fun d t => sortDfs g fuel d t)
            ((lookupG g node).getD [])
            { s with color := setColor s.color node GRAY } with
        | none => rw [hvl2] at hvs; simp at hvs
        | some bs =>
          obtain ⟨b, s2⟩ := bs
          cases b with
          | false => rfl
          | true => rfl

/-! ## The driver loop -/

theorem sortLoop_spec (g : Graph) (fuel : Nat) :
    ∀ ks s, SortInv g s → (∀ k ∈ ks, isKeyG g k = true) → notGrayCount g s < fuel →
      ∃ s', sortLoop g fuel ks s = some s' ∧ SortInv g s' := by
  intro ks
  induction ks with
  | nil => intro s hs _ _; exact ⟨s, rfl, hs⟩
  | cons k rest ih =>
    intro s hs hk hf
    simp only [sortLoop]
    by_cases hw : s.color k = WHITE
    · simp only [if_pos hw]
      have hkk : isKeyG g k = true := hk k (by simp)
      have hissome := sortDfs_isSome g fuel k s hs hkk hf
      cases hsd : sortDfs g fuel k s with
      | none => rw [hsd] at hissome; simp at hissome
      | some bs =>
        obtain ⟨b, s1⟩ := bs
        have hpost := sortDfs_spec g fuel k s hs hkk
        rw [hsd] at hpost
        obtain ⟨h1, h2, _⟩ := hpost
        refine ih s1 h1 (fun x hx => hk x (List.mem_cons_of_mem k hx)) ?_
        rw [notGrayCount_congr h2.2.1]
        exact hf
    · simp only [if_neg hw]
      exact ih s hs (fun x hx => hk x (List.mem_cons_of_mem k hx)) hf

/-- Master theorem for the sorter: the driver loop completes with a state
satisfying the invariant, and topological_sort returns the corresponding
filtered result. -/
theorem topological_sort_run (g : Graph) :
    ∃ s, sortLoop g (g.length + 1) (keysG g) ⟨fun _ => WHITE, [], []⟩ = some s ∧
      SortInv g s ∧
      topological_sort g = some (s.result.filter (fun n => decide (n ∉ s.inCycle))) := by
  have hinv : SortInv g (⟨fun _ => WHITE, [], []⟩ : SortState) := by
    refine ⟨List.nodup_nil, ?_, ?_, ?_⟩
    · intro x hx
      exact absurd hx (List.not_mem_nil x)
    · intro x hx
      exact absurd hx WHITE_ne_BLACK
    · intro p x q h
      rcases List.append_eq_nil.1 h.symm with ⟨_, h2⟩
      cases h2
  have hfuel : notGrayCount g (⟨fun _ => WHITE, [], []⟩ : SortState) < g.length + 1 := by
    refine Nat.lt_succ_of_le ?_
    calc ((keysG g).dedup.filter _).length
        ≤ (keysG g).dedup.length := List.length_filter_le _ _
      _ ≤ (keysG g).length := (List.dedup_sublist _).length_le
      _ = g.length := List.length_map _ _
  obtain ⟨s, heq, hinvs⟩ := sortLoop_spec g (g.length + 1) (keysG g)
    ⟨fun _ => WHITE, [], []⟩ hinv (fun k hk => isKey_of_mem_keysG hk) hfuel
  refine ⟨s, heq, hinvs, ?_⟩
  unfold topological_sort
  rw [heq]

/-! ## Order-theoretic consequences of the invariant -/

theorem EdgeG_key_src {g : Graph} {a b : String} (h : EdgeG g a b) :
    isKeyG g a = true := by
  obtain ⟨l, hlk, _⟩ := h
  unfold isKeyG
  rw [hlk]
  rfl

theorem transGen_key_src {g : Graph} {a b : String}
    (h : Relation.TransGen (EdgeG g) a b) : isKeyG g a = true := by
  induction h with
  | single h' => exact EdgeG_key_src h'
  | tail _ _ ih => exact ih

theorem topo_step {g : Graph} {r : List String} (ht : IsTopo g r) (hnd : r.Nodup)
    {x y : String} (hx : x ∈ r) (hxy : EdgeG g x y) (hky : isKeyG g y = true) :
    y ∈ r ∧ idxOf r y < idxOf r x := by
  obtain ⟨p, q, hr⟩ := List.append_of_mem hx
  obtain ⟨l, hlk, hyl⟩ := hxy
  have hdy : y ∈ depsOf g x := by
    simpa [depsOf, hlk] using hyl
  have hyp : y ∈ p := (ht p x q hr).2 y hdy hky
  subst hr
  constructor
  · exact List.mem_append.2 (Or.inl hyp)
  · have hxnp : x ∉ p := by
      intro hxp
      exact (List.nodup_append.1 hnd).2.2 hxp (by simp)
    rw [idxOf_append_self q hxnp]
    exact idxOf_append_mem (x :: q) hyp

theorem topo_transGen {g : Graph} {r : List String} (ht : IsTopo g r)
    (hnd : r.Nodup) {a b : String} (h : Relation.TransGen (EdgeG g) a b)
    (hkb : isKeyG g b = true) (ha : a ∈ r) :
    b ∈ r ∧ idxOf r b < idxOf r a := by
  revert ha
  induction h using Relation.TransGen.head_induction_on with
  | base h' =>
    intro ha
    exact topo_step ht hnd ha h' hkb
  | ih h' htg ihp =>
    intro ha
    have hkx := transGen_key_src htg
    have hstep := topo_step ht hnd ha h' hkx
    have hrec := ihp hstep.1
    exact ⟨hrec.1, Nat.lt_trans hrec.2 hstep.2⟩

theorem topo_reach {g : Graph} {r : List String} (ht : IsTopo g r)
    (hnd : r.Nodup) {k c : String} (h : Relation.ReflTransGen (EdgeG g) k c)
    (hkc : isKeyG g c = true) (hk : k ∈ r) : c ∈ r := by
  revert hk
  induction h using Relation.ReflTransGen.head_induction_on with
  | refl => intro hk; exact hk
  | head h' hrt ihp =>
    intro ha
    rcases Relation.ReflTransGen.cases_head hrt with he | ⟨y, hy, _⟩
    · exact ihp (topo_step ht hnd ha h' (he.symm ▸ hkc)).1
    · exact ihp (topo_step ht hnd ha h' (EdgeG_key_src hy)).1

/-! ## Claim theorems about the sorter -/

/-- Claim C8: the sorter is total — on every input graph it produces an
install order (the fuel-exhaustion branch is unreachable) — and every
name in that order is a key of the graph: dangling references, which are
skipped by the `dep not in graph` check, never appear in the order. -/
theorem c8_sorter_total_dangling_skipped (g : Graph) :
    ∃ ord, topological_sort g = some ord ∧ ∀ x ∈ ord, isKeyG g x = true := by
  obtain ⟨s, _, hinv, heq⟩ := topological_sort_run g
  refine ⟨_, heq, ?_⟩
  intro x hx
  exact IsTopo_key_of_mem hinv.2.2.2 (List.mem_of_mem_filter hx)

/-- Claim C8, witness: the sorter completes on the concrete cyclic graph
of §8. -/
theorem c8_sorter_total_dangling_skipped_witness :
    (topological_sort cycleGraph).isSome = true := by
  obtain ⟨ord, heq, _⟩ := c8_sorter_total_dangling_skipped cycleGraph
  rw [heq]
  rfl

/-- Claim C10: the install order contains each name at most once, and
every name in it is a key of the input graph. -/
theorem c10_order_nodup_keys (g : Graph) (ord : List String)
    (h : topological_sort g = some ord) :
    ord.Nodup ∧ ∀ x ∈ ord, x ∈ keysG g := by
  obtain ⟨s, _, hinv, heq⟩ := topological_sort_run g
  have hofe : ord = s.result.filter (fun n => decide (n ∉ s.inCycle)) :=
    Option.some.inj (h.symm.trans heq)
  subst hofe
  refine ⟨hinv.1.filter _, ?_⟩
  intro x hx
  exact mem_keysG_of_isKey
    (IsTopo_key_of_mem hinv.2.2.2 (List.mem_of_mem_filter hx))

/-- Claim C10, witness: the order computed for the diamond graph is
duplicate-free and lists only keys. -/
theorem c10_order_nodup_keys_witness :
    (["D", "B", "C", "A"] : List String).Nodup ∧
    ∀ x ∈ (["D", "B", "C", "A"] : List String),
      x ∈ keysG [("A", ["B", "C"]), ("B", ["D"]), ("D", []), ("C", ["D"])] := by
  exact c10_order_nodup_keys [("A", ["B", "C"]), ("B", ["D"]), ("D", []), ("C", ["D"])]
    ["D", "B", "C", "A"] (by rfl)

/-- Claim C3: for every edge A -> B of the graph, if both A and B appear
in the install order, then B occurs strictly before A in it. -/
theorem c3_edge_dependency_first (g : Graph) (ord : List String) (a b : String)
    (h : topological_sort g = some ord) (hedge : EdgeG g a b)
    (ha : a ∈ ord) (hb : b ∈ ord) : idxOf ord b < idxOf ord a := by
  obtain ⟨s, _, hinv, heq⟩ := topological_sort_run g
  have hofe : ord = s.result.filter (fun n => decide (n ∉ s.inCycle)) :=
    Option.some.inj (h.symm.trans heq)
  subst hofe
  have ha' : a ∈ s.result := List.mem_of_mem_filter ha
  have hb' : b ∈ s.result := List.mem_of_mem_filter hb
  have hkb : isKeyG g b = true := IsTopo_key_of_mem hinv.2.2.2 hb'
  have hstep := topo_step hinv.2.2.2 hinv.1 ha' hedge hkb
  exact idxOf_filter_lt ha hb hstep.2

/-- Claim C3, witness: in the order D, B, C, A of the diamond graph, the
dependency B of A comes before A. -/
theorem c3_edge_dependency_first_witness :
    idxOf ["D", "B", "C", "A"] "B" < idxOf ["D", "B", "C", "A"] "A" := by
  refine c3_edge_dependency_first
    [("A", ["B", "C"]), ("B", ["D"]), ("D", []), ("C", ["D"])]
    ["D", "B", "C", "A"] "A" "B" (by rfl) ⟨["B", "C"], by decide, by decide⟩
    (by decide) (by decide)

/-- Claim C2: any key from which a cycle is reachable through a chain of
edges is excluded from the install order, even if the key is not itself on
the cycle; in particular on the graph of §8 with A -> B -> C -> B the
order is empty. -/
theorem c2_cycle_taint_propagation (g : Graph) (ord : List String) (k c : String)
    (h : topological_sort g = some ord)
    (hreach : Relation.ReflTransGen (EdgeG g) k c)
    (hcyc : Relation.TransGen (EdgeG g) c c) :
    k ∉ ord ∧ topological_sort cycleGraph = some [] := by
  refine ⟨?_, by rfl⟩
  intro hk
  obtain ⟨s, _, hinv, heq⟩ := topological_sort_run g
  have hofe : ord = s.result.filter (fun n => decide (n ∉ s.inCycle)) :=
    Option.some.inj (h.symm.trans heq)
  subst hofe
  have hk' : k ∈ s.result := List.mem_of_mem_filter hk
  have hkc : isKeyG g c = true := transGen_key_src hcyc
  have hc : c ∈ s.result := topo_reach hinv.2.2.2 hinv.1 hreach hkc hk'
  have hlt := topo_transGen hinv.2.2.2 hinv.1 hcyc hkc hc
  exact Nat.lt_irrefl _ hlt.2

/-- Claim C2, witness: A is excluded from the order of the cyclic graph,
because A reaches the B-C cycle. -/
theorem c2_cycle_taint_propagation_witness :
    "A" ∉ (topological_sort cycleGraph).getD ["A"] := by
  have e1 : EdgeG cycleGraph "A" "B" := ⟨["B"], by decide, by decide⟩
  have e2 : EdgeG cycleGraph "B" "C" := ⟨["C"], by decide, by decide⟩
  have e3 : EdgeG cycleGraph "C" "B" := ⟨["B"], by decide, by decide⟩
  exact (c2_cycle_taint_propagation cycleGraph [] "A" "B" (by rfl)
    (Relation.ReflTransGen.single e1)
    (Relation.TransGen.head e2 (Relation.TransGen.single e3))).1

end KonfUpr
